import Mathlib

/-!
# Verification of the serialization and premium-plan signing core

A shallow embedding in Lean 4 of `src/serialize.ts` from the
google-maps-services-js client, together with proofs about its claims.

Modelling conventions:

* JavaScript numbers are modelled by `JSNum` (an exact rational or `NaN`).
  The file only relies on numeric facts on inputs where IEEE-754 double
  arithmetic is exact, so the rational model is faithful where it is used.
* Machine words (SHA-1) are `Nat` with explicit reduction `% 2 ^ 32`.
* Fallible JavaScript code (a thrown `TypeError`, an invalid `new URL`)
  is modelled with `Except` / `Option`.
* External primitives that the source imports (`crypto.createHmac`,
  `Buffer.from(_, "base64")`, `url.URL`, `query-string.stringify`, the
  UTF-8 codec) are implemented here following their published behavior;
  each such definition carries a doc comment saying what it models.
-/

/-! ## The JavaScript value model -/

/-- A JavaScript number: an exact rational, or `NaN`. -/
inductive JSNum where
  | rat (q : ℚ)
  | nan
deriving DecidableEq, Repr

/-- A JavaScript primitive value as it appears in a parameter mapping after
per-field serialization: string, number, or boolean. -/
inductive JSAtom where
  | str (s : String)
  | num (n : JSNum)
  | boolV (b : Bool)
deriving DecidableEq, Repr

/-- A JavaScript value stored under a key of a parameter mapping: a
primitive, or a flat array of primitives (the shape the query-string
builder's separator array format consumes). -/
inductive JSVal where
  | str (s : String)
  | num (n : JSNum)
  | boolV (b : Bool)
  | arr (xs : List JSAtom)
deriving DecidableEq, Repr

/-- Splits a character list at every occurrence of `sep` (the behavior of
JavaScript `String.prototype.split` with a one-character separator). -/
def splitChar (sep : Char) : List Char → List (List Char)
  | [] => [[]]
  | c :: cs =>
    match splitChar sep cs with
    | [] => [[]]
    | p :: ps => if c = sep then [] :: p :: ps else (c :: p) :: ps

/-- Ordinal (code-unit) comparison of character lists, the order
JavaScript applies when comparing strings. Modelled code-point-wise,
which agrees with UTF-16 order on the keys this code sorts. -/
def lexLe : List Char → List Char → Bool
  | [], _ => true
  | _ :: _, [] => false
  | a :: as, b :: bs =>
    if a.toNat < b.toNat then true
    else if b.toNat < a.toNat then false
    else lexLe as bs

/-- Ordinal string comparison. -/
def strLe (a b : String) : Bool := lexLe a.data b.data

/-- Joins strings with a separator (JavaScript `Array.prototype.join`). -/
def joinSep (sep : String) : List String → String
  | [] => ""
  | [s] => s
  | s :: s' :: rest => s ++ sep ++ joinSep sep (s' :: rest)

/-- Numeric value of a list of decimal digit characters. -/
def digitsVal (l : List Char) : Nat :=
  l.foldl (fun a c => 10 * a + (c.toNat - 48)) 0

/-- Least exponent `k` with `d ∣ 10 ^ k`, searched up to 40 (enough for any
denominator that divides a power of ten arising from decimal input). -/
def pow10DenExp (d : Nat) : Option Nat :=
  (List.range 41).find? (fun k => 10 ^ k % d == 0)

/-- Decimal rendering of a natural number together with an implied number
of fractional digits: digits of `m`, left-padded with zeros to at least
`k + 1` digits, with a point before the last `k` digits. -/
def decimalString (m k : Nat) : String :=
  let s := toString m
  let s := String.mk (List.replicate (k + 1 - s.length) '0') ++ s
  if k = 0 then s
  else String.mk (s.data.take (s.data.length - k)) ++ "." ++
       String.mk (s.data.drop (s.data.length - k))

/-- Models JavaScript default number-to-string conversion on the exact
fragment this file uses: `NaN` prints as `"NaN"`, a rational whose reduced
denominator divides a power of ten prints in plain decimal (JavaScript
prints such doubles the same way when they are exactly representable);
other rationals fall back to a fraction rendering that no proof relies on. -/
def jsNumToString : JSNum → String
  | .nan => "NaN"
  | .rat q =>
    let sign := if q < 0 then "-" else ""
    match pow10DenExp q.den with
    | some k => sign ++ decimalString (q.num.natAbs * (10 ^ k / q.den)) k
    | none => sign ++ toString q.num.natAbs ++ "/" ++ toString q.den

/-- JavaScript string coercion of a primitive value. -/
def jsAtomToString : JSAtom → String
  | .str s => s
  | .num n => jsNumToString n
  | .boolV b => if b then "true" else "false"

/-- JavaScript string coercion of a mapping value (an array coerces to its
elements joined by commas). -/
def jsValToString : JSVal → String
  | .str s => s
  | .num n => jsNumToString n
  | .boolV b => if b then "true" else "false"
  | .arr xs => joinSep "," (xs.map jsAtomToString)

/-- Models JavaScript `Number(string)` on the decimal-numeral fragment:
leading and trailing whitespace is trimmed, the empty string is `0`, an
optional sign followed by digits with an optional point parses exactly,
and anything else (the claims only ever exercise such inputs) is `NaN`.
Exponent, hexadecimal, and `Infinity` forms are outside the modelled
fragment. -/
def jsNumber (s : String) : JSNum :=
  let cs := (s.data.dropWhile Char.isWhitespace).reverse.dropWhile
    Char.isWhitespace |>.reverse
  if cs = [] then .rat 0
  else
    let sgn : ℤ := match cs with | '-' :: _ => -1 | _ => 1
    let body := match cs with
      | '-' :: rest => rest
      | '+' :: rest => rest
      | _ => cs
    match splitChar '.' body with
    | [ip] =>
      if ip ≠ [] ∧ ip.all Char.isDigit then .rat (mkRat (sgn * digitsVal ip) 1)
      else .nan
    | [ip, fp] =>
      if (ip ≠ [] ∨ fp ≠ []) ∧ ip.all Char.isDigit ∧ fp.all Char.isDigit then
        .rat (mkRat (sgn * (digitsVal ip * 10 ^ fp.length + digitsVal fp))
          (10 ^ fp.length))
      else .nan
    | _ => .nan

/-! ## Byte-level primitives: UTF-8, SHA-1, HMAC, base64 -/

/-- UTF-8 encoding of a Unicode code point, as a list of byte values. -/
def utf8Bytes (n : Nat) : List Nat :=
  if n < 0x80 then [n]
  else if n < 0x800 then [0xC0 ||| (n >>> 6), 0x80 ||| (n &&& 0x3F)]
  else if n < 0x10000 then
    [0xE0 ||| (n >>> 12), 0x80 ||| ((n >>> 6) &&& 0x3F), 0x80 ||| (n &&& 0x3F)]
  else
    [0xF0 ||| (n >>> 18), 0x80 ||| ((n >>> 12) &&& 0x3F),
     0x80 ||| ((n >>> 6) &&& 0x3F), 0x80 ||| (n &&& 0x3F)]

/-- UTF-8 bytes of a string (what Node feeds to `hmac.update(string)`). -/
def strToBytes (s : String) : List Nat :=
  s.data.flatMap (fun c => utf8Bytes c.toNat)

/-- Left rotation of a 32-bit word held in a `Nat`. -/
def rotl32 (n x : Nat) : Nat :=
  ((x <<< n) ||| (x >>> (32 - n))) % 2 ^ 32

/-- Big-endian 32-bit word from four bytes. -/
def wordOfBytes (b0 b1 b2 b3 : Nat) : Nat :=
  (b0 <<< 24) ||| (b1 <<< 16) ||| (b2 <<< 8) ||| b3

/-- Big-endian byte serialization of a 32-bit word. -/
def bytesOfWord (w : Nat) : List Nat :=
  [(w >>> 24) % 256, (w >>> 16) % 256, (w >>> 8) % 256, w % 256]

/-- SHA-1 message padding (FIPS 180-4): append `0x80`, zero bytes to 56 mod
64, then the 64-bit big-endian bit length. -/
def sha1Pad (msg : List Nat) : List Nat :=
  let padLen := (64 - ((msg.length + 9) % 64)) % 64
  let bitLen := msg.length * 8
  msg ++ [0x80] ++ List.replicate padLen 0 ++
    (List.range 8).map (fun i => (bitLen >>> (8 * (7 - i))) % 256)

/-- Accumulates bytes into chunks of 64, the pending chunk kept reversed. -/
def chunk64Aux (acc : List Nat) : List Nat → List (List Nat)
  | [] => if acc.isEmpty then [] else [acc.reverse]
  | b :: rest =>
    if acc.length = 63 then (acc.reverse ++ [b]) :: chunk64Aux [] rest
    else chunk64Aux (b :: acc) rest

/-- Splits a list into chunks of 64 elements. -/
def chunk64 (l : List Nat) : List (List Nat) := chunk64Aux [] l

/-- The 80-word SHA-1 message schedule of one 64-byte block. -/
def sha1Schedule (block : List Nat) : List Nat :=
  let w0 := (List.range 16).map (fun i =>
    wordOfBytes (block.getD (4 * i) 0) (block.getD (4 * i + 1) 0)
      (block.getD (4 * i + 2) 0) (block.getD (4 * i + 3) 0))
  (List.range 64).foldl (fun w _ =>
    let i := w.length
    w ++ [rotl32 1 (w.getD (i - 3) 0 ^^^ w.getD (i - 8) 0 ^^^
                    w.getD (i - 14) 0 ^^^ w.getD (i - 16) 0)]) w0

/-- One SHA-1 compression round. -/
def sha1Round (w : List Nat) (st : Nat × Nat × Nat × Nat × Nat) (i : Nat) :
    Nat × Nat × Nat × Nat × Nat :=
  let (a, b, c, d, e) := st
  let f :=
    if i < 20 then (b &&& c) ||| ((b ^^^ 0xFFFFFFFF) &&& d)
    else if i < 40 then b ^^^ c ^^^ d
    else if i < 60 then (b &&& c) ||| (b &&& d) ||| (c &&& d)
    else b ^^^ c ^^^ d
  let k :=
    if i < 20 then 0x5A827999
    else if i < 40 then 0x6ED9EBA1
    else if i < 60 then 0x8F1BBCDC
    else 0xCA62C1D6
  let temp := (rotl32 5 a + f + e + k + w.getD i 0) % 2 ^ 32
  (temp, a, rotl32 30 b, c, d)

/-- SHA-1 compression of one block into the running hash state. -/
def sha1Block (h : Nat × Nat × Nat × Nat × Nat) (block : List Nat) :
    Nat × Nat × Nat × Nat × Nat :=
  let w := sha1Schedule block
  let (a, b, c, d, e) := (List.range 80).foldl (sha1Round w) h
  let (h0, h1, h2, h3, h4) := h
  ((h0 + a) % 2 ^ 32, (h1 + b) % 2 ^ 32, (h2 + c) % 2 ^ 32,
   (h3 + d) % 2 ^ 32, (h4 + e) % 2 ^ 32)

/-- SHA-1 of a byte list (FIPS 180-4), the primitive behind Node's
`createHmac("sha1", _)`. -/
def sha1 (msg : List Nat) : List Nat :=
  let (h0, h1, h2, h3, h4) :=
    (chunk64 (sha1Pad msg)).foldl sha1Block
      (0x67452301, 0xEFCDAB89, 0x98BADCFE, 0x10325476, 0xC3D2E1F0)
  bytesOfWord h0 ++ bytesOfWord h1 ++ bytesOfWord h2 ++ bytesOfWord h3 ++
    bytesOfWord h4

/-- HMAC-SHA1 (FIPS 198-1): what `createHmac("sha1", key).update(msg)`
computes, with the message given as bytes. -/
def hmacSha1 (key msg : List Nat) : List Nat :=
  let k0 := if key.length > 64 then sha1 key else key
  let k0p := k0 ++ List.replicate (64 - k0.length) 0
  let ipad := k0p.map (· ^^^ 0x36)
  let opad := k0p.map (· ^^^ 0x5C)
  sha1 (opad ++ sha1 (ipad ++ msg))

/-- The standard base64 alphabet, as characters indexed 0 to 63. -/
def b64Alphabet : List Char :=
  "ABCDEFGHIJKLMNOPQRSTUVWXYZabcdefghijklmnopqrstuvwxyz0123456789+/".data

/-- The character standing for a sextet value. -/
def b64Char (n : Nat) : Char := b64Alphabet.getD n 'A'

/-- Standard base64 encoding of a byte list, with `=` padding (what
`digest("base64")` produces). -/
def b64EncodeChars : List Nat → List Char
  | b0 :: b1 :: b2 :: rest =>
    b64Char (b0 >>> 2) :: b64Char (((b0 &&& 3) <<< 4) ||| (b1 >>> 4)) ::
    b64Char (((b1 &&& 15) <<< 2) ||| (b2 >>> 6)) :: b64Char (b2 &&& 63) ::
    b64EncodeChars rest
  | [b0, b1] =>
    [b64Char (b0 >>> 2), b64Char (((b0 &&& 3) <<< 4) ||| (b1 >>> 4)),
     b64Char ((b1 &&& 15) <<< 2), '=']
  | [b0] =>
    [b64Char (b0 >>> 2), b64Char ((b0 &&& 3) <<< 4), '=', '=']
  | [] => []

/-- Standard base64 encoding of bytes as a string. -/
def base64Encode (bs : List Nat) : String := String.mk (b64EncodeChars bs)

/-- The sextet value of a base64 alphabet character, `none` for any other
character (`=` included). -/
def b64Index (c : Char) : Option Nat :=
  b64Alphabet.indexOf? c

/-- Bytes from a list of sextets; a trailing group of 3, 2, or 1 sextets
yields 2, 1, or 0 bytes. -/
def sextetsToBytes : List Nat → List Nat
  | a :: b :: c :: d :: rest =>
    ((a <<< 2) ||| (b >>> 4)) % 256 :: (((b &&& 15) <<< 4) ||| (c >>> 2)) % 256 ::
    (((c &&& 3) <<< 6) ||| d) % 256 :: sextetsToBytes rest
  | [a, b, c] =>
    [((a <<< 2) ||| (b >>> 4)) % 256, (((b &&& 15) <<< 4) ||| (c >>> 2)) % 256]
  | [a, b] => [((a <<< 2) ||| (b >>> 4)) % 256]
  | [_] => []
  | [] => []

/-- Models Node's forgiving base64 decoder `Buffer.from(s, "base64")`: it
never throws — decoding stops at the first `=`, characters outside the
base64 alphabet are skipped, and a trailing short group is decoded as far
as full bytes exist. -/
def bufferFromBase64 (s : String) : List Nat :=
  sextetsToBytes ((s.data.takeWhile (· ≠ '=')).filterMap b64Index)

/-- Resolves each character to its sextet, failing if any character is
outside the base64 alphabet. -/
def sextetsOf : List Char → Option (List Nat)
  | [] => some []
  | c :: cs =>
    match b64Index c, sextetsOf cs with
    | some i, some is => some (i :: is)
    | _, _ => none

/-- Strict standard base64 decoding, following the spec's words "the
base64-decoding of s": the length must be a multiple of four, at most two
trailing `=` of padding are allowed, and every other character must be in
the base64 alphabet; otherwise the decode fails. -/
def strictBase64Decode (s : String) : Option (List Nat) :=
  if s.data.length % 4 = 0 ∧ (s.data.reverse.takeWhile (· = '=')).length ≤ 2 then
    match sextetsOf (s.data.take (s.data.length -
        (s.data.reverse.takeWhile (· = '=')).length)) with
    | some sx =>
      if sx.length % 4 = (4 - (s.data.reverse.takeWhile (· = '=')).length) % 4 then
        some (sextetsToBytes sx)
      else none
    | none => none
  else none

/-- Character translation from URL-safe to standard base64: a dash
becomes a plus and an underscore becomes a slash. -/
def fromWebSafeChar (c : Char) : Char :=
  if c = '-' then '+' else if c = '_' then '/' else c

/-- Translation from URL-safe to standard base64: the two chained global
replacements in the source turn every dash into a plus and every
underscore into a slash. -/
def fromWebSafe (s : String) : String :=
  String.mk (s.data.map fromWebSafeChar)

/-- Character translation from standard to URL-safe base64: a plus
becomes a dash and a slash becomes an underscore. -/
def toWebSafeChar (c : Char) : Char :=
  if c = '+' then '-' else if c = '/' then '_' else c

/-- Translation from standard to URL-safe base64: every plus becomes a
dash and every slash becomes an underscore. -/
def toWebSafe (s : String) : String :=
  String.mk (s.data.map toWebSafeChar)

/-! Known-answer checks for the modelled primitives: the FIPS 180-4 SHA-1
digest of the empty message, an RFC 2202-style HMAC-SHA1 vector, and a
base64 round trip. -/

set_option maxRecDepth 100000 in
example : sha1 [] = [0xda, 0x39, 0xa3, 0xee, 0x5e, 0x6b, 0x4b, 0x0d, 0x32, 0x55,
    0xbf, 0xef, 0x95, 0x60, 0x18, 0x90, 0xaf, 0xd8, 0x07, 0x09] := by decide

set_option maxRecDepth 100000 in
example : hmacSha1 (strToBytes "key")
    (strToBytes "The quick brown fox jumps over the lazy dog") =
    [0xde, 0x7c, 0x9b, 0x85, 0xb8, 0xb7, 0x8a, 0xa6, 0xbc, 0x8a, 0x7a, 0x36,
     0xf7, 0x0a, 0x90, 0x70, 0x1c, 0x9d, 0xb4, 0xd9] := by decide

example : base64Encode (strToBytes "hello") = "aGVsbG8=" := by decide

example : bufferFromBase64 "aGVsbG8=" = strToBytes "hello" := by decide

example : strictBase64Decode "aGVsbG8=" = some (strToBytes "hello") := by decide

example : strictBase64Decode "aGVsbG8" = none := by decide

/-! ## The coordinate model and its serializers -/

/-- The error a thrown JavaScript `TypeError` is modelled by (the spec
calls it ShapeMismatch / TypeMismatch). -/
inductive JsError where
  | typeError
deriving DecidableEq, Repr

instance {ε α : Type _} [DecidableEq ε] [DecidableEq α] : DecidableEq (Except ε α) := fun a b =>
  match a, b with
  | .ok x, .ok y => if h : x = y then .isTrue (by rw [h]) else .isFalse (by simp [h])
  | .ok _, .error _ => .isFalse (by simp)
  | .error _, .ok _ => .isFalse (by simp)
  | .error e, .error f => if h : e = f then .isTrue (by rw [h]) else .isFalse (by simp [h])

/-- A value of the TypeScript `LatLng` union as it reaches the coordinate
functions: a string, an array of numbers, or a plain object whose
enumerable properties are numeric fields (the TypeScript field types).
The `in` operator of the source probes the listed keys of an object. -/
inductive LatLng where
  | str (s : String)
  | arr (xs : List JSNum)
  | obj (fields : List (String × JSNum))
deriving DecidableEq, Repr

/-- Whether an object has an own property named `k` (the `in` operator). -/
def hasField (fields : List (String × JSNum)) (k : String) : Bool :=
  fields.any (fun p => p.1 == k)

/-- Reads property `k` of an object (used only under a `hasField` guard,
so the default is never observed). -/
def getField (fields : List (String × JSNum)) (k : String) : JSNum :=
  ((fields.find? (fun p => p.1 == k)).map Prod.snd).getD .nan

/-- Embedding of `latLngToString`: a string passes through; a 2-element
array is joined as-is; an object with lat/lng or latitude/longitude is
turned into a pair first; anything else throws a `TypeError`. -/
def latLngToString : LatLng → Except JsError String
  | .str s => .ok s
  | .arr xs =>
    if xs.length = 2 then
      .ok (joinSep "," (xs.map jsNumToString))
    else .error .typeError
  | .obj fields =>
    if hasField fields "lat" ∧ hasField fields "lng" then
      .ok (joinSep "," ([getField fields "lat", getField fields "lng"].map jsNumToString))
    else if hasField fields "latitude" ∧ hasField fields "longitude" then
      .ok (joinSep "," ([getField fields "latitude", getField fields "longitude"].map jsNumToString))
    else .error .typeError

/-- A component of a returned coordinate literal: a number, or the
`undefined` that reading a missing array index produces. -/
inductive JSPart where
  | num (n : JSNum)
  | undefinedV
deriving DecidableEq, Repr

/-- The canonical coordinate record `LatLngLiteral` as built by
`toLatLngLiteral`. -/
structure LatLngLiteral where
  lat : JSPart
  lng : JSPart
deriving DecidableEq, Repr

/-- Indexing `parts[i]`: the element, or `undefined` past the end. -/
def partsGet (l : List JSNum) (i : Nat) : JSPart :=
  match l.get? i with
  | some n => .num n
  | none => .undefinedV

/-- Embedding of `toLatLngLiteral`: a string is split on commas and its
first two parts are `Number`-coerced; a 2-element array maps through
`Number` (the identity on numbers); an object with lat/lng passes its two
named fields through; latitude/longitude is remapped; anything else throws
a `TypeError`. -/
def toLatLngLiteral : LatLng → Except JsError LatLngLiteral
  | .str s =>
    let parts := (splitChar ',' s.data).map (fun p => jsNumber (String.mk p))
    .ok ⟨partsGet parts 0, partsGet parts 1⟩
  | .arr xs =>
    if xs.length = 2 then
      .ok ⟨partsGet xs 0, partsGet xs 1⟩
    else .error .typeError
  | .obj fields =>
    if hasField fields "lat" ∧ hasField fields "lng" then
      .ok ⟨.num (getField fields "lat"), .num (getField fields "lng")⟩
    else if hasField fields "latitude" ∧ hasField fields "longitude" then
      .ok ⟨.num (getField fields "latitude"), .num (getField fields "longitude")⟩
    else .error .typeError

/-- The four supported coordinate shapes, written from the spec: a string,
a 2-element ordered pair, an object with lat and lng fields, or an object
with latitude and longitude fields. -/
def matchesShape : LatLng → Prop
  | .str _ => True
  | .arr xs => xs.length = 2
  | .obj fields =>
    (hasField fields "lat" = true ∧ hasField fields "lng" = true) ∨
    (hasField fields "latitude" = true ∧ hasField fields "longitude" = true)

instance : DecidablePred matchesShape := fun o => by
  cases o <;> simp [matchesShape] <;> infer_instance

/-- Embedding of `latLngArrayToStringMaybeEncoded`. The path-encoding
function `encodePath` is imported from `./util`, outside this core; it is
taken as an explicit parameter, so every theorem below holds for any such
function. A string passes through; otherwise the pipe-joined form and the
`enc:`-marked path-encoded form are both produced and the strictly shorter
one is returned, ties going to the pipe-joined form. -/
def latLngArrayToStringMaybeEncoded (encodePath : List LatLngLiteral → String) :
    String ⊕ List LatLng → Except JsError String
  | .inl s => .ok s
  | .inr o => do
    let strs ← o.mapM latLngToString
    let concatenated := joinSep "|" strs
    let lits ← o.mapM toLatLngLiteral
    let encoded := "enc:" ++ encodePath lits
    if encoded.length < concatenated.length then
      pure encoded
    else
      pure concatenated

/-! ## The generic value serializer -/

/-- A parameter-mapping object: its own enumerable string keys in
insertion order, each with a value. A JavaScript object never repeats a
key; theorems that depend on that carry a `Nodup` hypothesis. -/
abbrev Obj := List (String × JSVal)

/-- Whether the mapping has key `k` (the `in` operator). -/
def objHasKey (o : Obj) (k : String) : Bool :=
  o.any (fun p => p.1 == k)

/-- Reads key `k` of the mapping (`undefined` is never observed: every
read in the source is guarded by a key test). -/
def objGet (o : Obj) (k : String) : JSVal :=
  ((o.find? (fun p => p.1 == k)).map Prod.snd).getD (.str "undefined")

/-- Writes key `k`: an existing key keeps its position, a new key is
appended (JavaScript property assignment order semantics). -/
def objSet (o : Obj) (k : String) (v : JSVal) : Obj :=
  if objHasKey o k then o.map (fun p => if p.1 == k then (k, v) else p)
  else o ++ [(k, v)]

/-- Deletes key `k` (the `delete` operator). -/
def objDelete (o : Obj) (k : String) : Obj :=
  o.filter (fun p => p.1 ≠ k)

/-- Embedding of `objectToString`: a string passes through; otherwise the
object's own keys are collected, sorted, and each rendered as key, colon,
value with JavaScript string coercion, joined by the pipe separator.
JavaScript `Array.prototype.sort` on strings is modelled by insertion sort
under the ordinal string order. -/
def objectToString : String ⊕ Obj → String
  | .inl s => s
  | .inr o =>
    let keys := (o.map Prod.fst).insertionSort (fun a b => strLe a b = true)
    joinSep "|" (keys.map (fun k => k ++ ":" ++ jsValToString (objGet o k)))

/-- The input union of `toTimestamp`: the literal string `"now"`, a plain
number, or a `Date` carrying its underlying millisecond timestamp (what
`Number(date)` returns). -/
inductive TimestampInput where
  | nowLit
  | num (n : JSNum)
  | date (ms : JSNum)
deriving DecidableEq, Repr

/-- JavaScript division of a number by a nonzero integer constant: exact
rational division, `NaN` propagating. On the inputs the claims exercise,
double division is exact, so the rational model is faithful there. -/
def jsDivInt (n : JSNum) (d : ℤ) : JSNum :=
  match n with
  | .nan => .nan
  | .rat q => .rat (mkRat q.num (q.den * d.natAbs))

/-- Embedding of `toTimestamp`: the literal `"now"` and plain numbers pass
through unchanged, a `Date` becomes its numeric value divided by 1000. -/
def toTimestamp : TimestampInput → JSVal
  | .nowLit => .str "now"
  | .num n => .num n
  | .date ms => .num (jsDivInt ms 1000)

/-! ## URL parsing and the premium-plan signature -/

/-- The components `new URL(u)` exposes that the signer reads, plus the
ones the claims say are discarded. -/
structure URLParts where
  scheme : String
  host : String
  pathname : String
  search : String
  fragment : String
deriving DecidableEq, Repr

/-- Splits a character list at the first colon-slash-slash, returning the
part before it and the part after it. -/
def splitAuthority : List Char → Option (List Char × List Char)
  | ':' :: '/' :: '/' :: rest => some ([], rest)
  | c :: rest => (splitAuthority rest).map (fun p => (c :: p.1, p.2))
  | [] => none

/-- Models the WHATWG `new URL(u)` constructor on absolute URLs of the
form scheme, colon-slash-slash, host, then an optional path, query, and
fragment, for inputs whose components need no normalization (no relative
references, percent-normalization, or host case-folding; the URLs this
code builds are of that fragment). An empty path reads back as a single
slash, an empty query as an empty search, matching WHATWG accessors.
Returns `none` where the constructor throws. -/
def parseURL (u : String) : Option URLParts :=
  match splitAuthority u.data with
  | some (schemeChars, afterChars) =>
    let scheme := String.mk schemeChars
    if schemeChars ≠ [] ∧ schemeChars.all (fun c => c.isAlpha) then
      let hostChars := afterChars.takeWhile (fun c => c ≠ '/' ∧ c ≠ '?' ∧ c ≠ '#')
      let rest := afterChars.drop hostChars.length
      if hostChars = [] then none
      else
        let path := rest.takeWhile (fun c => c ≠ '?' ∧ c ≠ '#')
        let afterPath := rest.drop path.length
        let query := (afterPath.takeWhile (fun c => c ≠ '#')).drop 1
        let frag := (afterPath.dropWhile (fun c => c ≠ '#')).drop 1
        some
          { scheme := scheme
            host := String.mk hostChars
            pathname := if path = [] then "/" else String.mk path
            search := if query = [] then "" else "?" ++ String.mk query
            fragment := if frag = [] then "" else "#" ++ String.mk frag }
    else none
  | none => none

/-- Embedding of `createPremiumPlanSignature`: parse the unsigned URL and
keep only its path and query, translate the secret from URL-safe to
standard base64 and decode it with Node's forgiving decoder, HMAC-SHA1
sign the path-and-query string with the decoded secret, base64 the digest
and translate it to URL-safe base64. `none` exactly when `new URL`
throws. -/
def createPremiumPlanSignature (unsignedUrl clientSecret : String) : Option String :=
  match parseURL unsignedUrl with
  | none => none
  | some fullUrl =>
    let pathAndQuery := fullUrl.pathname ++ fullUrl.search
    let unsafeClientSecret := fromWebSafe clientSecret
    let decodedSecret := bufferFromBase64 unsafeClientSecret
    let unsafeSignature := base64Encode (hmacSha1 decodedSecret (strToBytes pathAndQuery))
    some (toWebSafe unsafeSignature)

/-- The signature computation written from the spec's words, for
comparison with the source's: HMAC-SHA1 with key the strict base64
decoding of the translated secret and message exactly path-plus-query,
then base64, then the URL-safe translation. Fails if the secret is not
valid base64 after translation. -/
def premiumPlanSignatureSpec (unsignedUrl clientSecret : String) : Option String := do
  let parts ← parseURL unsignedUrl
  let key ← strictBase64Decode (fromWebSafe clientSecret)
  some (toWebSafe (base64Encode (hmacSha1 key (strToBytes (parts.pathname ++ parts.search)))))

/-! ## The query-string builder and the serializer -/

/-- Hexadecimal digit characters used by percent-encoding. -/
def hexDigit (n : Nat) : Char := "0123456789ABCDEF".data.getD n '0'

/-- Percent-encoding of one character as the strict URI encoder used by
the query-string package: unreserved characters (alphanumerics, dash,
underscore, dot, tilde) stay, everything else becomes percent-escaped
UTF-8 bytes. -/
def encodeChar (c : Char) : List Char :=
  if c.isAlphanum ∨ c = '-' ∨ c = '_' ∨ c = '.' ∨ c = '~' then [c]
  else (utf8Bytes c.toNat).flatMap (fun b => ['%', hexDigit (b / 16), hexDigit (b % 16)])

/-- Strict percent-encoding of a string. -/
def percentEncode (s : String) : String :=
  String.mk (s.data.flatMap encodeChar)

/-- The wire value of one mapping entry under the query-string package's
separator array format: an array is each element percent-encoded then
joined by the pipe separator; anything else is the percent-encoding of its
string coercion. -/
def qsValue : JSVal → String
  | .arr xs => joinSep "|" (xs.map (fun x => percentEncode (jsAtomToString x)))
  | v => percentEncode (jsValToString v)

/-- Models the query-string package's `stringify` with the options the
source passes (separator array format with pipe): keys are sorted (its
default), each entry is rendered as encoded key, equals sign, wire value,
and entries are joined by ampersands. -/
def qsStringify (o : Obj) : String :=
  let entries := o.insertionSort (fun a b => strLe a.1 b.1 = true)
  joinSep "&" (entries.map (fun p => percentEncode p.1 ++ "=" ++ qsValue p.2))

/-- Embedding of `createPremiumPlanQueryString`, acting on the (already
copied and serialized) parameter object: add a `client` key carrying the
`client_id` value, read the secret, delete both credential keys, build
the query string, sign the base URL joined to it, and append the signature
as the final field. The first component is the object as the mutations
leave it; the output is `none` exactly when `new URL` throws inside the
signer. -/
def createPremiumPlanQueryString (serializedParams : Obj) (baseUrl : String) :
    Obj × Option String :=
  let o₁ := objSet serializedParams "client" (objGet serializedParams "client_id")
  let clientSecret := jsValToString (objGet o₁ "client_secret")
  let o₂ := objDelete o₁ "client_id"
  let o₃ := objDelete o₂ "client_secret"
  let baseQuery := qsStringify o₃
  let unsignedUrl := baseUrl ++ "?" ++ baseQuery
  match createPremiumPlanSignature unsignedUrl clientSecret with
  | none => (o₃, none)
  | some signature => (o₃, some (baseQuery ++ "&signature=" ++ signature))

/-- The serializer table: field names with their serializer functions, in
the table's own key order (what `Object.keys(format)` iterates). -/
abbrev SerializerTable := List (String × (JSVal → JSVal))

/-- The per-field pass of the returned closure: for every table key also
present in the mapping, the field's value is replaced by the serializer
function's output. -/
def applyFormat (format : SerializerTable) (o : Obj) : Obj :=
  format.foldl (fun o kf =>
    if objHasKey o kf.1 then objSet o kf.1 (kf.2 (objGet o kf.1)) else o) o

/-- A heap of parameter objects; a caller's mapping is a reference into
it, so that the defensive-copy behavior of the source is observable. -/
abbrev Store := List Obj

/-- Reads the object a reference designates. -/
def heapGet (st : Store) (r : Nat) : Obj := st.getD r []

/-- Overwrites the object a reference designates. -/
def heapSet (st : Store) (r : Nat) (o : Obj) : Store := st.set r o

/-- Embedding of `serializer`: the returned closure, acting on a store and
a reference to the caller's parameter mapping. It first takes a shallow
copy of the mapping (a fresh object), applies the per-field serializers to
the copy, and then either delegates to the premium-plan path (when both
credential keys are present) or hands the copy to the query-string
builder. The store result exposes every object as the call leaves it. -/
def serializer (format : SerializerTable) (baseUrl : String) :
    Store → Nat → Store × Option String :=
  fun st p =>
    let copied := heapGet st p
    let c := st.length
    let st₁ := st ++ [copied]
    let serialized := applyFormat format copied
    let st₂ := heapSet st₁ c serialized
    if objHasKey serialized "client_id" && objHasKey serialized "client_secret" then
      let (finalObj, out) := createPremiumPlanQueryString serialized baseUrl
      (heapSet st₂ c finalObj, out)
    else
      (st₂, some (qsStringify serialized))

/-- The fields of a produced query string, read back from the wire: split
on ampersands, then each piece's key is what stands before its first
equals sign and its value everything after it. -/
def fieldsOf (r : String) : List (String × String) :=
  (splitChar '&' r.data).map (fun p =>
    (String.mk (p.takeWhile (· ≠ '=')), String.mk ((p.dropWhile (· ≠ '=')).drop 1)))

/-! ## Helper lemmas -/

theorem char_toNat_inj {a b : Char} (h : a.toNat = b.toNat) : a = b := by
  rw [← Char.ofNat_toNat a, h, Char.ofNat_toNat]

theorem ok_bind {ε α β : Type _} (a : α) (f : α → Except ε β) :
    (do let x ← Except.ok (ε := ε) a; f x) = f a := rfl

theorem getD_mem_or {α : Type _} (l : List α) (n : Nat) (d : α) :
    l.getD n d ∈ l ∨ l.getD n d = d := by
  rcases h : l[n]? with _ | x
  · right; simp [List.getD, h]
  · left; simpa [List.getD, h] using List.getElem?_mem h

theorem takeWhile_append_stop {p : Char → Bool} :
    ∀ l₁ l₂ : List Char, (∀ c ∈ l₁, p c = true) →
      (l₂ = [] ∨ ∃ x t, l₂ = x :: t ∧ p x = false) →
      (l₁ ++ l₂).takeWhile p = l₁
  | [], l₂, _, h₂ => by
    rcases h₂ with rfl | ⟨x, t, rfl, hx⟩
    · rfl
    · simp [List.takeWhile, hx]
  | c :: l₁, l₂, h₁, h₂ => by
    have hc : p c = true := h₁ c (by simp)
    rw [List.cons_append, List.takeWhile_cons_of_pos hc,
      takeWhile_append_stop l₁ l₂ (fun c hc => h₁ c (by simp [hc])) h₂]

theorem dropWhile_append_stop {p : Char → Bool} :
    ∀ l₁ l₂ : List Char, (∀ c ∈ l₁, p c = true) →
      (l₂ = [] ∨ ∃ x t, l₂ = x :: t ∧ p x = false) →
      (l₁ ++ l₂).dropWhile p = l₂
  | [], l₂, _, h₂ => by
    rcases h₂ with rfl | ⟨x, t, rfl, hx⟩
    · rfl
    · simp [List.dropWhile, hx]
  | c :: l₁, l₂, h₁, h₂ => by
    have hc : p c = true := h₁ c (by simp)
    rw [List.cons_append, List.dropWhile_cons_of_pos hc]
    exact dropWhile_append_stop l₁ l₂ (fun c hc => h₁ c (by simp [hc])) h₂

/-! ## Claim C6: toTimestamp -/

/-- Claim C6 counterexample: the claim predicts that sub-second precision
is truncated away, so a `Date` at 500 milliseconds would map to 0 seconds;
the code instead divides exactly and returns one half. -/
theorem toTimestamp_fractional_counterexample :
    toTimestamp (.date (.rat (mkRat 500 1))) = .num (.rat (mkRat 1 2)) ∧
    toTimestamp (.date (.rat (mkRat 500 1))) ≠ .num (.rat (mkRat 0 1)) := by
  decide

/-- Claim C6 (amended): `toTimestamp` passes the literal string `"now"`
and plain numbers through unchanged, and maps a `Date` to its underlying
millisecond timestamp divided by 1000 exactly — the fractional part is
kept, not truncated; `new Date(0)` maps to 0. -/
theorem toTimestamp_behavior (n : JSNum) (q : ℚ) :
    toTimestamp .nowLit = .str "now" ∧
    toTimestamp (.num n) = .num n ∧
    toTimestamp (.date (.rat q)) = .num (.rat (q / 1000)) ∧
    toTimestamp (.date (.rat 0)) = .num (.rat 0) := by
  have key : ∀ r : ℚ, mkRat r.num (r.den * 1000) = r / 1000 := by
    intro r
    rw [Rat.mkRat_eq_div]
    push_cast
    rw [div_mul_eq_div_div]
    congr 1
    exact Rat.num_div_den r
  refine ⟨rfl, rfl, ?_, ?_⟩
  · show JSVal.num (jsDivInt (.rat q) 1000) = _
    simp [jsDivInt, key q]
  · show JSVal.num (jsDivInt (.rat 0) 1000) = _
    simp [jsDivInt, key 0]

/-! ## Claim C7: coordinate shape dispatch -/

/-- Claim C7: both coordinate functions succeed exactly on the four
supported shapes, and on every other input both throw the `TypeError`
the spec calls ShapeMismatch. -/
theorem latLng_shape_check (o : LatLng) :
    ((latLngToString o).isOk = true ↔ matchesShape o) ∧
    ((toLatLngLiteral o).isOk = true ↔ matchesShape o) ∧
    (¬ matchesShape o →
      latLngToString o = .error .typeError ∧ toLatLngLiteral o = .error .typeError) := by
  cases o with
  | str s => simp [latLngToString, toLatLngLiteral, matchesShape, Except.isOk, Except.toBool]
  | arr xs =>
    by_cases h : xs.length = 2 <;>
      simp [latLngToString, toLatLngLiteral, matchesShape, Except.isOk, Except.toBool, h]
  | obj fields =>
    by_cases h₁ : hasField fields "lat" = true ∧ hasField fields "lng" = true <;>
    by_cases h₂ : hasField fields "latitude" = true ∧ hasField fields "longitude" = true <;>
      simp [latLngToString, toLatLngLiteral, matchesShape, Except.isOk, Except.toBool, h₁, h₂]

/-- Claim C7 witness: the object with a lone `foo` field matches no shape
and makes `latLngToString` throw. -/
theorem latLng_shape_check_witness :
    latLngToString (.obj [("foo", .rat (mkRat 1 1))]) = .error .typeError :=
  ((latLng_shape_check (.obj [("foo", .rat (mkRat 1 1))])).2.2 (by decide)).1

/-! ## Claim C10: strings bypass shape validation -/

/-- Claim C10 counterexample: for the one-part string input, the claim
predicts a `NaN` longitude, but reading the missing second part yields
`undefined`, which is a different value from `NaN`. -/
theorem toLatLngLiteral_missing_part :
    toLatLngLiteral (.str "1") = .ok ⟨.num (.rat (mkRat 1 1)), .undefinedV⟩ ∧
    (JSPart.undefinedV ≠ JSPart.num .nan) := by
  decide

/-- Claim C10 (amended): string coordinates are never shape-validated —
`latLngToString` returns the string unchanged and `toLatLngLiteral` builds
its record by `Number`-coercing the comma-separated parts (`NaN` for a
non-numeric part), a missing part reading back as `undefined` rather than
`NaN`; neither function can throw on a string. -/
theorem latLng_string_bypasses_validation (s : String) :
    latLngToString (.str s) = .ok s ∧
    toLatLngLiteral (.str s) =
      .ok ⟨partsGet ((splitChar ',' s.data).map (fun p => jsNumber (String.mk p))) 0,
           partsGet ((splitChar ',' s.data).map (fun p => jsNumber (String.mk p))) 1⟩ ∧
    (latLngToString (.str s)).isOk = true ∧ (toLatLngLiteral (.str s)).isOk = true := by
  exact ⟨rfl, rfl, rfl, rfl⟩

/-! ## Claim C3: no DecodeError exists in the signer -/

/-- Claim C3 counterexample: the secret made of three exclamation marks is
not valid base64 after URL-safe translation, yet the signer still returns
a signature — no DecodeError is ever raised. -/
theorem premium_signature_ignores_bad_secret :
    strictBase64Decode (fromWebSafe "!!!") = none ∧
    (createPremiumPlanSignature "https://example.com/a?b=c" "!!!").isSome = true := by
  constructor
  · decide
  · rfl

/-- Claim C3 (amended): `createPremiumPlanSignature` never fails because
of the secret: Node's forgiving base64 decoder silently skips invalid
characters, so for every secret string — valid base64 or not — the signer
returns a signature whenever the URL parses. -/
theorem premium_signature_never_fails (u s : String) (parts : URLParts)
    (h : parseURL u = some parts) :
    (createPremiumPlanSignature u s).isSome = true := by
  simp [createPremiumPlanSignature, h]

/-- Claim C3 witness: a concrete URL on which the amended claim applies. -/
theorem premium_signature_never_fails_witness :
    parseURL "https://example.com/a?b=c" = some
      { scheme := "https", host := "example.com", pathname := "/a",
        search := "?b=c", fragment := "" } ∧
    (createPremiumPlanSignature "https://example.com/a?b=c" "%%%").isSome = true :=
  ⟨by decide, premium_signature_never_fails _ "%%%"
    ⟨"https", "example.com", "/a", "?b=c", ""⟩ (by decide)⟩

/-! ## Claim C4: shortest of the two sequence encodings -/

/-- Claim C4: on a non-string coordinate list (whenever its elements pass
both coordinate serializers), the result is the `enc:`-marked candidate
exactly when that candidate is strictly shorter than the pipe-joined
candidate — ties going to the pipe-joined form — the result is never
longer than either candidate, and a string input passes through
unchanged; all of this for an arbitrary external path encoder. -/
theorem latLngArray_shortest (ep : List LatLngLiteral → String) (xs : List LatLng)
    (strs : List String) (lits : List LatLngLiteral)
    (h1 : xs.mapM latLngToString = .ok strs)
    (h2 : xs.mapM toLatLngLiteral = .ok lits) :
    latLngArrayToStringMaybeEncoded ep (.inr xs) =
      .ok (if ("enc:" ++ ep lits).length < (joinSep "|" strs).length
           then "enc:" ++ ep lits else joinSep "|" strs) ∧
    (∀ r, latLngArrayToStringMaybeEncoded ep (.inr xs) = .ok r →
      r.length ≤ ("enc:" ++ ep lits).length ∧ r.length ≤ (joinSep "|" strs).length) ∧
    (∀ s, latLngArrayToStringMaybeEncoded ep (.inl s) = .ok s) := by
  have hmain : latLngArrayToStringMaybeEncoded ep (.inr xs) =
      .ok (if ("enc:" ++ ep lits).length < (joinSep "|" strs).length
           then "enc:" ++ ep lits else joinSep "|" strs) := by
    simp only [latLngArrayToStringMaybeEncoded, h1, h2]
    rw [ok_bind, ok_bind]
    split <;> rfl
  refine ⟨hmain, ?_, fun s => rfl⟩
  intro r hr
  rw [hmain] at hr
  injection hr with hr
  subst hr
  split
  · next h => exact ⟨le_refl _, Nat.le_of_lt h⟩
  · next h => exact ⟨Nat.le_of_not_lt h, le_refl _⟩

/-- Claim C4 witness: a one-point list whose pipe-joined form is shorter
than its path-encoded form under a constant path encoder. -/
theorem latLngArray_shortest_witness :
    ([LatLng.str "1,2"].mapM latLngToString = .ok ["1,2"]) ∧
    ([LatLng.str "1,2"].mapM toLatLngLiteral =
      .ok [⟨.num (.rat (mkRat 1 1)), .num (.rat (mkRat 2 1))⟩]) ∧
    latLngArrayToStringMaybeEncoded (fun _ => "x") (.inr [LatLng.str "1,2"]) =
      .ok (if ("enc:" ++ (fun _ => "x") [(⟨.num (.rat (mkRat 1 1)), .num (.rat (mkRat 2 1))⟩ : LatLngLiteral)]).length <
              (joinSep "|" ["1,2"]).length
           then "enc:" ++ (fun _ => "x") [(⟨.num (.rat (mkRat 1 1)), .num (.rat (mkRat 2 1))⟩ : LatLngLiteral)]
           else joinSep "|" ["1,2"]) :=
  ⟨by decide, by decide,
   (latLngArray_shortest (fun _ => "x") [LatLng.str "1,2"] ["1,2"]
     [⟨.num (.rat (mkRat 1 1)), .num (.rat (mkRat 2 1))⟩] (by decide) (by decide)).1⟩

/-! ## Claim C8: the caller's mapping is never mutated -/

theorem heapGet_heapSet_ne (st : Store) (r q : Nat) (o : Obj) (h : r ≠ q) :
    heapGet (heapSet st r o) q = heapGet st q := by
  simp [heapGet, heapSet, List.getD, List.getElem?_set_ne h]

theorem heapGet_append_lt (st : Store) (o : Obj) (p : Nat) (h : p < st.length) :
    heapGet (st ++ [o]) p = heapGet st p := by
  simp [heapGet, List.getD, List.getElem?_append_left h]

/-- Claim C8: the closure `serializer` returns only ever writes to the
defensive copy it allocates — the caller's parameter object reads back
unchanged from the store after the call, on both the plain and the
premium-plan paths, whatever the serializer table does. -/
theorem serializer_preserves_params (format : SerializerTable) (baseUrl : String)
    (st : Store) (p : Nat) (h : p < st.length) :
    ((serializer format baseUrl) st p).1.getD p [] = st.getD p [] := by
  unfold serializer
  by_cases hc : (objHasKey (applyFormat format (heapGet st p)) "client_id" &&
      objHasKey (applyFormat format (heapGet st p)) "client_secret") = true
  · rcases hcp : createPremiumPlanQueryString (applyFormat format (heapGet st p)) baseUrl
      with ⟨fo, out⟩
    simp only [hc, hcp, if_true]
    show heapGet (heapSet (heapSet (st ++ [heapGet st p]) st.length
      (applyFormat format (heapGet st p))) st.length fo) p = heapGet st p
    rw [heapGet_heapSet_ne _ _ _ _ (by omega), heapGet_heapSet_ne _ _ _ _ (by omega),
      heapGet_append_lt _ _ _ h]
  · simp only [hc, if_false, Bool.false_eq_true]
    show heapGet (heapSet (st ++ [heapGet st p]) st.length
      (applyFormat format (heapGet st p))) p = heapGet st p
    rw [heapGet_heapSet_ne _ _ _ _ (by omega), heapGet_append_lt _ _ _ h]

/-- Claim C8 witness: a one-object store on the plain path. -/
theorem serializer_preserves_params_witness :
    0 < ([[("x", JSVal.str "1")]] : Store).length ∧
    ((serializer [] "https://a.example.com/b" [[("x", JSVal.str "1")]] 0).1.getD 0 [] =
      ([[("x", JSVal.str "1")]] : Store).getD 0 []) :=
  ⟨by decide, serializer_preserves_params [] "https://a.example.com/b" _ 0 (by decide)⟩

/-! ## Claim C9: determinism and the URL-safe output alphabet -/

/-- The URL-safe base64 characters the spec allows in a signature:
alphanumerics, dash, underscore, and the padding equals sign. -/
def urlSafeB64Chars : List Char :=
  "ABCDEFGHIJKLMNOPQRSTUVWXYZabcdefghijklmnopqrstuvwxyz0123456789-_=".data

theorem b64Char_mem (n : Nat) : b64Char n ∈ b64Alphabet := by
  rcases getD_mem_or b64Alphabet n 'A' with h | h
  · exact h
  · rw [b64Char, h]; decide

theorem b64EncodeChars_mem : ∀ bs : List Nat, ∀ c ∈ b64EncodeChars bs,
    c ∈ b64Alphabet ∨ c = '='
  | b0 :: b1 :: b2 :: rest, c, hc => by
    simp only [b64EncodeChars, List.mem_cons] at hc
    rcases hc with rfl | rfl | rfl | rfl | hc
    · exact .inl (b64Char_mem _)
    · exact .inl (b64Char_mem _)
    · exact .inl (b64Char_mem _)
    · exact .inl (b64Char_mem _)
    · exact b64EncodeChars_mem rest c hc
  | [b0, b1], c, hc => by
    simp only [b64EncodeChars, List.mem_cons] at hc
    rcases hc with rfl | rfl | rfl | rfl | hc
    · exact .inl (b64Char_mem _)
    · exact .inl (b64Char_mem _)
    · exact .inl (b64Char_mem _)
    · exact .inr rfl
    · cases hc
  | [b0], c, hc => by
    simp only [b64EncodeChars, List.mem_cons] at hc
    rcases hc with rfl | rfl | rfl | rfl | hc
    · exact .inl (b64Char_mem _)
    · exact .inl (b64Char_mem _)
    · exact .inr rfl
    · exact .inr rfl
    · cases hc
  | [], c, hc => by cases hc

/-- Every character of a URL-safe-translated base64 encoding lies in the
URL-safe alphabet and is neither a plus nor a slash. -/
theorem toWebSafe_b64_chars (bs : List Nat) :
    ∀ c ∈ (toWebSafe (base64Encode bs)).data,
      c ∈ urlSafeB64Chars ∧ c ≠ '+' ∧ c ≠ '/' := by
  intro c hc
  have hdata : (toWebSafe (base64Encode bs)).data =
      (b64EncodeChars bs).map toWebSafeChar := rfl
  rw [hdata] at hc
  obtain ⟨c₀, hc₀, rfl⟩ := List.mem_map.1 hc
  have hmem := b64EncodeChars_mem bs c₀ hc₀
  have hall : ∀ x ∈ b64Alphabet ++ ['='],
      toWebSafeChar x ∈ urlSafeB64Chars ∧ toWebSafeChar x ≠ '+' ∧ toWebSafeChar x ≠ '/' := by
    decide
  refine hall c₀ ?_
  rcases hmem with h | rfl
  · exact List.mem_append_left _ h
  · exact List.mem_append_right _ (by decide)

/-- Claim C9: the signer is deterministic — identical arguments give an
identical result — and every produced signature consists solely of
URL-safe base64 characters: no plus and no slash, with at most the
padding URL-safe base64 permits. -/
theorem premium_signature_deterministic_websafe (u s : String) (parts : URLParts)
    (h : parseURL u = some parts) :
    createPremiumPlanSignature u s = createPremiumPlanSignature u s ∧
    ∀ sig, createPremiumPlanSignature u s = some sig →
      ∀ c ∈ sig.data, c ∈ urlSafeB64Chars ∧ c ≠ '+' ∧ c ≠ '/' := by
  refine ⟨rfl, ?_⟩
  intro sig hsig c hc
  rw [createPremiumPlanSignature, h] at hsig
  injection hsig with hsig
  subst hsig
  exact toWebSafe_b64_chars _ c hc

/-- Claim C9 witness: a concrete URL and secret at which the theorem
applies. -/
theorem premium_signature_deterministic_websafe_witness :
    parseURL "https://example.com/a?b=c" = some
      { scheme := "https", host := "example.com", pathname := "/a",
        search := "?b=c", fragment := "" } ∧
    (∀ sig, createPremiumPlanSignature "https://example.com/a?b=c" "c2VjcmV0" = some sig →
      ∀ c ∈ sig.data, c ∈ urlSafeB64Chars ∧ c ≠ '+' ∧ c ≠ '/') :=
  ⟨by decide,
   (premium_signature_deterministic_websafe "https://example.com/a?b=c" "c2VjcmV0"
     ⟨"https", "example.com", "/a", "?b=c", ""⟩ (by decide)).2⟩

/-! ## Claim C1: the signature matches its specification -/

theorem sextetsOf_mem_ne : ∀ l : List Char, ∀ sx : List Nat, sextetsOf l = some sx →
    ∀ c ∈ l, c ≠ '='
  | [], _, _, c, hc => absurd hc (List.not_mem_nil c)
  | a :: l, sx, h, c, hc => by
    simp only [sextetsOf] at h
    rcases hai : b64Index a with _ | i <;> rcases hsl : sextetsOf l with _ | is <;>
      simp only [hai, hsl] at h <;> try exact Option.noConfusion h
    rcases List.mem_cons.1 hc with rfl | hc
    · intro hceq
      rw [hceq] at hai
      have hnone : b64Index '=' = none := by decide
      rw [hnone] at hai
      exact Option.noConfusion hai
    · exact sextetsOf_mem_ne l is hsl c hc

theorem filterMap_of_sextetsOf : ∀ l : List Char, ∀ sx : List Nat,
    sextetsOf l = some sx → l.filterMap b64Index = sx
  | [], sx, h => by
    simp only [sextetsOf, Option.some.injEq] at h
    simp [← h]
  | a :: l, sx, h => by
    simp only [sextetsOf] at h
    rcases hai : b64Index a with _ | i <;> rcases hsl : sextetsOf l with _ | is <;>
      simp only [hai, hsl] at h <;> try exact Option.noConfusion h
    injection h with h
    rw [List.filterMap_cons, hai, ← h, filterMap_of_sextetsOf l is hsl]

/-- A strict base64 decode success is reproduced by Node's forgiving
decoder: the body before the padding is exactly what the forgiving decoder
sees, and both decode it to the same bytes. -/
theorem bufferFromBase64_of_strict (s : String) (key : List Nat)
    (h : strictBase64Decode s = some key) : bufferFromBase64 s = key := by
  unfold strictBase64Decode at h
  split_ifs at h with hcond
  rcases hsx : sextetsOf (s.data.take (s.data.length -
      (s.data.reverse.takeWhile (· = '=')).length)) with _ | sx
  · simp only [hsx] at h
    exact Option.noConfusion h
  · simp only [hsx] at h
    split_ifs at h with hlen
    injection h with h
    -- decompose the character list into body and padding run
    have hsplit : s.data.reverse.takeWhile (· = '=') ++ s.data.reverse.dropWhile (· = '=') =
        s.data.reverse := List.takeWhile_append_dropWhile _ _
    set run := s.data.reverse.takeWhile (· = '=') with hrun
    set rest := s.data.reverse.dropWhile (· = '=') with hrest
    have hdata : s.data = rest.reverse ++ run.reverse := by
      rw [← List.reverse_append, hsplit, List.reverse_reverse]
    have hlenrun : s.data.length = rest.length + run.length := by
      rw [hdata]; simp [Nat.add_comm]
    have hbody : s.data.take (s.data.length - run.length) = rest.reverse := by
      rw [hdata]
      have hl : (rest.reverse ++ run.reverse).length - run.length = rest.reverse.length := by
        simp
      rw [hl, List.take_left]
    have hrunmem : ∀ c ∈ run.reverse, c = '=' := by
      intro c hc
      have hc2 : c ∈ List.takeWhile (fun x => decide (x = '=')) s.data.reverse := by
        rw [← hrun]
        exact List.mem_reverse.1 hc
      have := List.mem_takeWhile_imp (p := fun x => decide (x = '=')) hc2
      exact of_decide_eq_true this
    have hbodymem : ∀ c ∈ rest.reverse, (c ≠ '=' : Bool) = true := by
      intro c hc
      have := sextetsOf_mem_ne _ _ (hbody ▸ hsx) c (hbody.symm ▸ hc)
      simpa using this
    have htake : s.data.takeWhile (fun c => c ≠ '=') = rest.reverse := by
      rw [hdata]
      refine takeWhile_append_stop _ _ hbodymem ?_
      rcases hrc : run.reverse with _ | ⟨x, t⟩
      · exact .inl rfl
      · refine .inr ⟨x, t, rfl, ?_⟩
        have : x = '=' := hrunmem x (by rw [hrc]; simp)
        simp [this]
    rw [bufferFromBase64, htake, filterMap_of_sextetsOf _ _ (hbody ▸ hsx), h]

/-- Claim C1: for a well-formed URL and a secret that is valid base64
after URL-safe translation, the signature equals the URL-safe translation
of the base64 encoding of the HMAC-SHA1 digest keyed by the decoded secret
over exactly the path-and-query portion of the URL; it coincides with the
spec-side definition, and it does not depend on the scheme, host, or
fragment of the URL. -/
theorem createPremiumPlanSignature_matches_spec (u s : String) (parts : URLParts)
    (key : List Nat)
    (hu : parseURL u = some parts)
    (hk : strictBase64Decode (fromWebSafe s) = some key) :
    createPremiumPlanSignature u s =
      some (toWebSafe (base64Encode
        (hmacSha1 key (strToBytes (parts.pathname ++ parts.search))))) ∧
    createPremiumPlanSignature u s = premiumPlanSignatureSpec u s ∧
    (∀ v (pv : URLParts), parseURL v = some pv → pv.pathname = parts.pathname →
      pv.search = parts.search →
      createPremiumPlanSignature v s = createPremiumPlanSignature u s) := by
  have hbuf := bufferFromBase64_of_strict _ _ hk
  have hgen : ∀ (w : String) (pw : URLParts), parseURL w = some pw →
      createPremiumPlanSignature w s =
        some (toWebSafe (base64Encode
          (hmacSha1 key (strToBytes (pw.pathname ++ pw.search))))) := by
    intro w pw hw
    unfold createPremiumPlanSignature
    rw [hw]
    show some (toWebSafe (base64Encode (hmacSha1 (bufferFromBase64 (fromWebSafe s))
      (strToBytes (pw.pathname ++ pw.search))))) = _
    rw [hbuf]
  refine ⟨hgen u parts hu, ?_, ?_⟩
  · unfold premiumPlanSignatureSpec
    rw [hu, hgen u parts hu]
    show _ = Option.bind (strictBase64Decode (fromWebSafe s)) _
    rw [hk]
    show _ = some (toWebSafe (base64Encode (hmacSha1 key
      (strToBytes (parts.pathname ++ parts.search)))))
    rfl
  · intro v pv hv hp hq
    rw [hgen v pv hv, hgen u parts hu, hp, hq]

/-- Claim C1 witness: a concrete URL and a valid URL-safe-base64 secret. -/
theorem createPremiumPlanSignature_matches_spec_witness :
    parseURL "https://maps.example.com/p/q?x=1" = some
      ⟨"https", "maps.example.com", "/p/q", "?x=1", ""⟩ ∧
    strictBase64Decode (fromWebSafe "c2VjcmV0") =
      some [0x73, 0x65, 0x63, 0x72, 0x65, 0x74] ∧
    createPremiumPlanSignature "https://maps.example.com/p/q?x=1" "c2VjcmV0" =
      some (toWebSafe (base64Encode (hmacSha1 [0x73, 0x65, 0x63, 0x72, 0x65, 0x74]
        (strToBytes ((⟨"https", "maps.example.com", "/p/q", "?x=1", ""⟩ : URLParts).pathname ++
          (⟨"https", "maps.example.com", "/p/q", "?x=1", ""⟩ : URLParts).search))))) :=
  ⟨by decide, by decide,
   (createPremiumPlanSignature_matches_spec "https://maps.example.com/p/q?x=1" "c2VjcmV0"
     ⟨"https", "maps.example.com", "/p/q", "?x=1", ""⟩
     [0x73, 0x65, 0x63, 0x72, 0x65, 0x74] (by decide) (by decide)).1⟩

/-! ## Claim C5: objectToString sorts and is insertion-order independent -/

theorem lexLe_head_le {a b : Char} {as bs : List Char}
    (h : lexLe (a :: as) (b :: bs) = true) : a.toNat ≤ b.toNat := by
  simp only [lexLe] at h
  split_ifs at h with h1 h2
  · omega
  · omega

theorem lexLe_cons_of_eq {a b : Char} (as bs : List Char) (h : a.toNat = b.toNat) :
    lexLe (a :: as) (b :: bs) = lexLe as bs := by
  simp only [lexLe]
  have h1 : ¬ a.toNat < b.toNat := by omega
  have h2 : ¬ b.toNat < a.toNat := by omega
  simp [h1, h2]

theorem lexLe_total : ∀ a b : List Char, lexLe a b = true ∨ lexLe b a = true
  | [], _ => .inl rfl
  | _ :: _, [] => .inr rfl
  | a :: as, b :: bs => by
    rcases Nat.lt_trichotomy a.toNat b.toNat with h | h | h
    · left; simp [lexLe, h]
    · rw [lexLe_cons_of_eq as bs h, lexLe_cons_of_eq bs as h.symm]
      exact lexLe_total as bs
    · right; simp [lexLe, h]

theorem lexLe_trans : ∀ a b c : List Char,
    lexLe a b = true → lexLe b c = true → lexLe a c = true
  | [], _, _, _, _ => rfl
  | _ :: _, [], _, h1, _ => by simp [lexLe] at h1
  | _ :: _, _ :: _, [], _, h2 => by simp [lexLe] at h2
  | a :: as, b :: bs, c :: cs, h1, h2 => by
    by_cases hac : a.toNat < c.toNat
    · simp [lexLe, hac]
    · have hab := lexLe_head_le h1
      have hbc := lexLe_head_le h2
      have heq : a.toNat = c.toNat := by omega
      have heqb : a.toNat = b.toNat := by omega
      have heqbc : b.toNat = c.toNat := by omega
      rw [lexLe_cons_of_eq as cs heq]
      rw [lexLe_cons_of_eq as bs heqb] at h1
      rw [lexLe_cons_of_eq bs cs heqbc] at h2
      exact lexLe_trans as bs cs h1 h2

theorem lexLe_antisymm : ∀ a b : List Char,
    lexLe a b = true → lexLe b a = true → a = b
  | [], [], _, _ => rfl
  | [], _ :: _, _, h2 => by simp [lexLe] at h2
  | _ :: _, [], h1, _ => by simp [lexLe] at h1
  | a :: as, b :: bs, h1, h2 => by
    have hab := lexLe_head_le h1
    have hba := lexLe_head_le h2
    have heq : a.toNat = b.toNat := by omega
    rw [lexLe_cons_of_eq as bs heq] at h1
    rw [lexLe_cons_of_eq bs as heq.symm] at h2
    rw [char_toNat_inj heq, lexLe_antisymm as bs h1 h2]

instance : IsTotal String (fun a b => strLe a b = true) :=
  ⟨fun a b => lexLe_total a.data b.data⟩

instance : IsTrans String (fun a b => strLe a b = true) :=
  ⟨fun _ _ _ h1 h2 => lexLe_trans _ _ _ h1 h2⟩

instance : IsAntisymm String (fun a b => strLe a b = true) :=
  ⟨fun a b h1 h2 => by
    cases a; cases b
    exact congrArg String.mk (lexLe_antisymm _ _ h1 h2)⟩

/-- Reading a key gives the same value in any reordering of an object with
no repeated keys. -/
theorem perm_objGet {l₁ l₂ : Obj} (hp : l₁.Perm l₂)
    (hnd : (l₁.map Prod.fst).Nodup) : ∀ k, objGet l₁ k = objGet l₂ k := by
  induction hp with
  | nil => intro _; rfl
  | cons x hp ih =>
    intro k
    rw [List.map_cons, List.nodup_cons] at hnd
    by_cases hx : (x.1 == k) = true
    · simp [objGet, List.find?_cons, hx]
    · simpa [objGet, List.find?_cons, hx] using ih hnd.2 k
  | swap x y l =>
    intro k
    rw [List.map_cons, List.map_cons, List.nodup_cons] at hnd
    have hyx : y.1 ≠ x.1 := by
      intro h
      exact hnd.1 (by rw [List.mem_cons]; exact .inl h)
    by_cases hy : (y.1 == k) = true <;> by_cases hx : (x.1 == k) = true
    · exact absurd (by rw [eq_of_beq hy, eq_of_beq hx]) hyx
    · simp [objGet, List.find?_cons, hx, hy]
    · simp [objGet, List.find?_cons, hx, hy]
    · simp [objGet, List.find?_cons, hx, hy]
  | trans h12 h23 ih12 ih23 =>
    intro k
    have hnd2 := ((h12.map Prod.fst).nodup_iff).1 hnd
    rw [ih12 hnd k, ih23 hnd2 k]

/-- Claim C5: `objectToString` passes strings through, renders an object
as its sorted keys each followed by a colon and the coerced value joined
by pipes, and is therefore invariant under permuting the object's
insertion order (for genuine objects, whose keys do not repeat). -/
theorem objectToString_sorted_invariant (s : String) (l₁ l₂ : Obj)
    (hp : l₁.Perm l₂) (hnd : (l₁.map Prod.fst).Nodup) :
    objectToString (.inl s) = s ∧
    objectToString (.inr l₁) = joinSep "|"
      (((l₁.map Prod.fst).insertionSort (fun a b => strLe a b = true)).map
        (fun k => k ++ ":" ++ jsValToString (objGet l₁ k))) ∧
    objectToString (.inr l₁) = objectToString (.inr l₂) := by
  refine ⟨rfl, rfl, ?_⟩
  show joinSep "|" _ = joinSep "|" _
  have hkeys : (l₁.map Prod.fst).Perm (l₂.map Prod.fst) := hp.map _
  have hsorted : (l₁.map Prod.fst).insertionSort (fun a b => strLe a b = true) =
      (l₂.map Prod.fst).insertionSort (fun a b => strLe a b = true) := by
    exact List.eq_of_perm_of_sorted (r := fun a b => strLe a b = true)
      ((List.perm_insertionSort _ _).trans
        (hkeys.trans (List.perm_insertionSort _ _).symm))
      (List.sorted_insertionSort _ _) (List.sorted_insertionSort _ _)
  rw [hsorted]
  congr 1
  exact List.map_congr_left (fun k _ => by rw [perm_objGet hp hnd k])

/-- Claim C5 witness: the two-key object in its two insertion orders. -/
theorem objectToString_sorted_invariant_witness :
    (([("b", JSVal.num (.rat (mkRat 1 1))), ("a", JSVal.num (.rat (mkRat 2 1)))].map
      Prod.fst).Nodup) ∧
    objectToString (.inr [("b", JSVal.num (.rat (mkRat 1 1))),
        ("a", JSVal.num (.rat (mkRat 2 1)))]) =
      objectToString (.inr [("a", JSVal.num (.rat (mkRat 2 1))),
        ("b", JSVal.num (.rat (mkRat 1 1)))]) :=
  ⟨by decide,
   (objectToString_sorted_invariant "" _ _ (List.Perm.swap _ _ _) (by decide)).2.2⟩

/-! ## Claim C2: fields of the premium-plan query string -/

/-- Char-level join with a separator list, mirror of `joinSep`. -/
def joinCharL (sep : List Char) : List (List Char) → List Char
  | [] => []
  | [p] => p
  | p :: q :: r => p ++ sep ++ joinCharL sep (q :: r)

theorem data_joinSep (sep : String) : ∀ l : List String,
    (joinSep sep l).data = joinCharL sep.data (l.map String.data)
  | [] => rfl
  | [s] => rfl
  | s :: s' :: rest => by
    show (s ++ sep ++ joinSep sep (s' :: rest)).data = _
    rw [String.data_append, String.data_append, data_joinSep sep (s' :: rest)]
    rfl

theorem splitChar_ne_nil (sep : Char) : ∀ l : List Char, splitChar sep l ≠ []
  | [] => by simp [splitChar]
  | c :: cs => by
    simp only [splitChar]
    rcases h : splitChar sep cs with _ | ⟨p, ps⟩
    · simp
    · split_ifs <;> simp

theorem splitChar_no_sep (sep : Char) : ∀ l : List Char, sep ∉ l →
    splitChar sep l = [l]
  | [], _ => rfl
  | c :: cs, h => by
    have hc : ¬ c = sep := fun hh => h (by rw [hh]; exact List.mem_cons_self _ _)
    simp only [splitChar, splitChar_no_sep sep cs (fun hh => h (List.mem_cons_of_mem _ hh)), hc]
    simp

theorem splitChar_append_cons (sep : Char) : ∀ l₁ l₂ : List Char, sep ∉ l₁ →
    splitChar sep (l₁ ++ sep :: l₂) = l₁ :: splitChar sep l₂
  | [], l₂, _ => by
    simp only [List.nil_append, splitChar]
    rcases h : splitChar sep l₂ with _ | ⟨p, ps⟩
    · exact absurd h (splitChar_ne_nil sep l₂)
    · simp
  | c :: l₁, l₂, h => by
    have hc : ¬ c = sep := fun hh => h (by rw [hh]; exact List.mem_cons_self _ _)
    simp only [List.cons_append, splitChar, List.append_eq]
    rw [splitChar_append_cons sep l₁ l₂ (fun hh => h (List.mem_cons_of_mem _ hh))]
    simp [hc]

theorem splitChar_joinCharL (sep : Char) : ∀ ps : List (List Char), ps ≠ [] →
    (∀ p ∈ ps, sep ∉ p) → ∀ t : List Char, sep ∉ t →
    splitChar sep (joinCharL [sep] ps ++ sep :: t) = ps ++ [t]
  | [], hne, _, _, _ => absurd rfl hne
  | [p], _, hmem, t, ht => by
    rw [joinCharL, splitChar_append_cons sep p t (hmem p (by simp)),
      splitChar_no_sep sep t ht]
    rfl
  | p :: q :: r, _, hmem, t, ht => by
    have hassoc : joinCharL [sep] (p :: q :: r) ++ sep :: t =
        p ++ sep :: (joinCharL [sep] (q :: r) ++ sep :: t) := by
      show (p ++ [sep] ++ joinCharL [sep] (q :: r)) ++ sep :: t = _
      simp
    rw [hassoc, splitChar_append_cons sep p _ (hmem p (by simp)),
      splitChar_joinCharL sep (q :: r) (by simp)
        (fun x hx => hmem x (List.mem_cons_of_mem _ hx)) t ht]
    rfl

theorem utf8Bytes_ne_nil (n : Nat) : utf8Bytes n ≠ [] := by
  unfold utf8Bytes
  split_ifs <;> simp

theorem encodeChar_not_special (c : Char) : ∀ x ∈ encodeChar c,
    x ≠ '&' ∧ x ≠ '=' ∧ x ≠ '|' := by
  intro x hx
  unfold encodeChar at hx
  split_ifs at hx with h
  · rw [List.mem_singleton] at hx
    subst hx
    refine ⟨?_, ?_, ?_⟩ <;> · intro hh; rw [hh] at h; revert h; decide
  · rw [List.mem_flatMap] at hx
    obtain ⟨b, _, hb⟩ := hx
    have hhex : ∀ n : Nat, hexDigit n ≠ '&' ∧ hexDigit n ≠ '=' ∧ hexDigit n ≠ '|' := by
      intro n
      rcases getD_mem_or "0123456789ABCDEF".data n '0' with hm | hm
      · have hall : ∀ y ∈ "0123456789ABCDEF".data, y ≠ '&' ∧ y ≠ '=' ∧ y ≠ '|' := by
          decide
        exact hall _ hm
      · rw [hexDigit, hm]; decide
    rw [List.mem_cons, List.mem_cons, List.mem_singleton] at hb
    rcases hb with rfl | rfl | rfl
    · exact ⟨by decide, by decide, by decide⟩
    · exact hhex _
    · exact hhex _

theorem percentEncode_chars (s : String) : ∀ x ∈ (percentEncode s).data,
    x ≠ '&' ∧ x ≠ '=' ∧ x ≠ '|' := by
  intro x hx
  have : x ∈ s.data.flatMap encodeChar := hx
  rw [List.mem_flatMap] at this
  obtain ⟨c, _, hc⟩ := this
  exact encodeChar_not_special c x hc

theorem flatMap_encodeChar_self : ∀ cs : List Char,
    '%' ∉ cs.flatMap encodeChar → cs.flatMap encodeChar = cs
  | [], _ => rfl
  | c :: cs, h => by
    rw [List.flatMap_cons] at h ⊢
    have hec : encodeChar c = [c] := by
      unfold encodeChar
      split_ifs with hc
      · rfl
      · exfalso
        apply h
        apply List.mem_append_left
        unfold encodeChar
        rw [if_neg hc, List.mem_flatMap]
        rcases hb : utf8Bytes c.toNat with _ | ⟨b, t⟩
        · exact absurd hb (utf8Bytes_ne_nil _)
        · exact ⟨b, by simp [hb], by simp⟩
    rw [hec]
    have ht : '%' ∉ cs.flatMap encodeChar := fun hh => h (by
      apply List.mem_append_right
      exact hh)
    rw [flatMap_encodeChar_self cs ht]
    rfl

/-- A percent-encoded key that reads back as a percent-free string must be
that string itself. -/
theorem percentEncode_eq_plain {k m : String} (h : percentEncode k = m)
    (hm : '%' ∉ m.data) : k = m := by
  have hdata : k.data.flatMap encodeChar = m.data := by
    rw [← h]; rfl
  have : k.data = m.data := by
    rw [← hdata]
    exact (flatMap_encodeChar_self k.data (by rw [hdata]; exact hm)).symm
  cases k; cases m
  exact congrArg String.mk this

theorem joinSep_chars (sep : String) : ∀ l : List String, ∀ x ∈ (joinSep sep l).data,
    x ∈ sep.data ∨ ∃ p ∈ l, x ∈ p.data
  | [], x, hx => absurd hx (List.not_mem_nil x)
  | [s], x, hx => .inr ⟨s, by simp, hx⟩
  | s :: s' :: rest, x, hx => by
    have huf : joinSep sep (s :: s' :: rest) = s ++ sep ++ joinSep sep (s' :: rest) := rfl
    rw [huf, String.data_append, String.data_append] at hx
    rcases List.mem_append.1 hx with h | h
    · rcases List.mem_append.1 h with h2 | h2
      · exact .inr ⟨s, by simp, h2⟩
      · exact .inl h2
    · rcases joinSep_chars sep (s' :: rest) x h with h2 | ⟨p, hp, hxp⟩
      · exact .inl h2
      · exact .inr ⟨p, List.mem_cons_of_mem _ hp, hxp⟩

theorem qsValue_chars (v : JSVal) : ∀ x ∈ (qsValue v).data, x ≠ '&' ∧ x ≠ '=' := by
  intro x hx
  cases v with
  | arr xs =>
    rcases joinSep_chars "|" _ x hx with h | ⟨p, hp, hxp⟩
    · rw [show ("|" : String).data = ['|'] from rfl, List.mem_singleton] at h
      subst h
      exact ⟨by decide, by decide⟩
    · obtain ⟨a, _, rfl⟩ := List.mem_map.1 hp
      have := percentEncode_chars _ x hxp
      exact ⟨this.1, this.2.1⟩
  | str s =>
    have := percentEncode_chars _ x hx
    exact ⟨this.1, this.2.1⟩
  | num n =>
    have := percentEncode_chars _ x hx
    exact ⟨this.1, this.2.1⟩
  | boolV b =>
    have := percentEncode_chars _ x hx
    exact ⟨this.1, this.2.1⟩

theorem objSet_mem (o : Obj) (k : String) (v : JSVal) : (k, v) ∈ objSet o k v := by
  unfold objSet
  split_ifs with h
  · unfold objHasKey at h
    obtain ⟨p, hp, hpk⟩ := List.any_eq_true.1 h
    refine List.mem_map.2 ⟨p, hp, ?_⟩
    simp [hpk]
  · exact List.mem_append_right _ (by simp)

theorem objDelete_mem {o : Obj} {w : String} {p : String × JSVal}
    (h : p ∈ o) (hne : p.1 ≠ w) : p ∈ objDelete o w := by
  unfold objDelete
  rw [List.mem_filter]
  exact ⟨h, by simpa using hne⟩

theorem objDelete_key {o : Obj} {w : String} {p : String × JSVal}
    (h : p ∈ objDelete o w) : p ∈ o ∧ p.1 ≠ w := by
  unfold objDelete at h
  rw [List.mem_filter] at h
  exact ⟨h.1, by simpa using h.2⟩

/-- The canonicalized premium-plan parameter object of the spec: the
client identifier renamed to `client`, both credential fields removed. It
coincides with the object the source's three mutations leave behind. -/
def canonicalParams (o : Obj) : Obj :=
  objDelete (objDelete (objSet o "client" (objGet o "client_id")) "client_id")
    "client_secret"

/-- Reading the produced premium-plan query string back field by field:
the serializer-table entries appear percent-encoded in sorted order, and
the signature field stands alone at the end. -/
theorem fieldsOf_premium (o : Obj) (ho : o ≠ []) (sig : String)
    (hsig : ∀ x ∈ sig.data, x ≠ '&') :
    fieldsOf (qsStringify o ++ "&signature=" ++ sig) =
      ((o.insertionSort (fun a b => strLe a.1 b.1 = true)).map
        (fun p => (percentEncode p.1, qsValue p.2))) ++ [("signature", sig)] := by
  set entries := o.insertionSort (fun a b => strLe a.1 b.1 = true) with hentries
  have hperm := List.perm_insertionSort (fun a b => strLe a.1 b.1 = true) o
  have hne : entries ≠ [] := by
    intro hnil
    have h2 : List.insertionSort (fun a b => strLe a.1 b.1 = true) o = [] := by
      rw [← hentries]
      exact hnil
    rw [h2] at hperm
    exact ho (List.Perm.eq_nil hperm.symm)
  have hq : qsStringify o =
      joinSep "&" (entries.map (fun p => percentEncode p.1 ++ "=" ++ qsValue p.2)) := rfl
  have hrdata : (qsStringify o ++ "&signature=" ++ sig).data =
      joinCharL ['&'] ((entries.map (fun p =>
          percentEncode p.1 ++ "=" ++ qsValue p.2)).map String.data) ++
        '&' :: ("signature=".data ++ sig.data) := by
    rw [String.data_append, String.data_append, hq, data_joinSep]
    show _ ++ ('&' :: "signature=".data) ++ sig.data = _
    simp [List.append_assoc]
  have hpieces : ∀ pd ∈ (entries.map (fun p =>
      percentEncode p.1 ++ "=" ++ qsValue p.2)).map String.data, '&' ∉ pd := by
    intro pd hpd
    obtain ⟨pc, hpc, rfl⟩ := List.mem_map.1 hpd
    obtain ⟨p, hp, rfl⟩ := List.mem_map.1 hpc
    intro hmem
    have hmem2 : '&' ∈ (percentEncode p.1).data ++ '=' :: (qsValue p.2).data := by
      simpa [String.data_append] using hmem
    rcases List.mem_append.1 hmem2 with h | h
    · exact (percentEncode_chars _ _ h).1 rfl
    · rcases List.mem_cons.1 h with h2 | h2
      · exact absurd h2 (by decide)
      · exact (qsValue_chars _ _ h2).1 rfl
  have hmapne : (entries.map (fun p =>
      percentEncode p.1 ++ "=" ++ qsValue p.2)).map String.data ≠ [] := by
    simp [hne]
  have hsigpiece : '&' ∉ "signature=".data ++ sig.data := by
    intro hmem
    rcases List.mem_append.1 hmem with h | h
    · revert h; decide
    · exact hsig _ h rfl
  show (splitChar '&' (qsStringify o ++ "&signature=" ++ sig).data).map _ = _
  rw [hrdata, splitChar_joinCharL '&' _ hmapne hpieces _ hsigpiece, List.map_append,
    List.map_map, List.map_map]
  congr 1
  · refine List.map_congr_left ?_
    intro p _
    show (String.mk (((percentEncode p.1 ++ "=" ++ qsValue p.2).data).takeWhile (· ≠ '=')),
          String.mk ((((percentEncode p.1 ++ "=" ++ qsValue p.2).data).dropWhile
            (· ≠ '=')).drop 1)) = _
    have hdata2 : (percentEncode p.1 ++ "=" ++ qsValue p.2).data =
        (percentEncode p.1).data ++ '=' :: (qsValue p.2).data := by
      simp [String.data_append]
    rw [hdata2,
      takeWhile_append_stop _ _
        (fun c hc => by simpa using (percentEncode_chars _ _ hc).2.1)
        (.inr ⟨'=', _, rfl, by simp⟩),
      dropWhile_append_stop _ _
        (fun c hc => by simpa using (percentEncode_chars _ _ hc).2.1)
        (.inr ⟨'=', _, rfl, by simp⟩)]
    rfl

/-- Claim C2: when the serialized mapping carries both credential keys,
the serializer's output is the canonical query string with a trailing
signature field: it contains a `client` field holding the (encoded)
`client_id` value, no `client_id` or `client_secret` field at all, and
its last field is the signature. -/
theorem serializer_premium_fields
    (format : SerializerTable) (baseUrl : String) (st : Store) (p : Nat)
    (parts : URLParts)
    (h1 : objHasKey (applyFormat format (heapGet st p)) "client_id" = true)
    (h2 : objHasKey (applyFormat format (heapGet st p)) "client_secret" = true)
    (h3 : parseURL (baseUrl ++ "?" ++
        qsStringify (canonicalParams (applyFormat format (heapGet st p)))) = some parts) :
    ∃ sig r,
      ((serializer format baseUrl) st p).2 = some r ∧
      r = qsStringify (canonicalParams (applyFormat format (heapGet st p))) ++
          "&signature=" ++ sig ∧
      ("client", qsValue (objGet (applyFormat format (heapGet st p)) "client_id")) ∈
        fieldsOf r ∧
      (∀ f ∈ fieldsOf r, f.1 ≠ "client_id" ∧ f.1 ≠ "client_secret") ∧
      (fieldsOf r).getLast? = some ("signature", sig) := by
  set sp := applyFormat format (heapGet st p) with hsp
  set SIG := toWebSafe (base64Encode (hmacSha1
    (bufferFromBase64 (fromWebSafe (jsValToString
      (objGet (objSet sp "client" (objGet sp "client_id")) "client_secret"))))
    (strToBytes (parts.pathname ++ parts.search)))) with hSIG
  have hsig_eq : createPremiumPlanSignature
      (baseUrl ++ "?" ++ qsStringify (canonicalParams sp))
      (jsValToString (objGet (objSet sp "client" (objGet sp "client_id")) "client_secret")) =
      some SIG := by
    unfold createPremiumPlanSignature
    rw [h3]
  have hcp : createPremiumPlanQueryString sp baseUrl =
      (canonicalParams sp,
       some (qsStringify (canonicalParams sp) ++ "&signature=" ++ SIG)) := by
    show (match createPremiumPlanSignature
        (baseUrl ++ "?" ++ qsStringify (canonicalParams sp))
        (jsValToString (objGet (objSet sp "client" (objGet sp "client_id")) "client_secret")) with
      | none => (canonicalParams sp, none)
      | some signature => (canonicalParams sp,
          some (qsStringify (canonicalParams sp) ++ "&signature=" ++ signature))) = _
    rw [hsig_eq]
  have hcond : (objHasKey sp "client_id" && objHasKey sp "client_secret") = true := by
    simp [h1, h2]
  have hout : ((serializer format baseUrl) st p).2 =
      some (qsStringify (canonicalParams sp) ++ "&signature=" ++ SIG) := by
    show (if (objHasKey sp "client_id" && objHasKey sp "client_secret") = true then
            (heapSet (heapSet (st ++ [heapGet st p]) st.length sp) st.length
               (createPremiumPlanQueryString sp baseUrl).1,
             (createPremiumPlanQueryString sp baseUrl).2)
          else (heapSet (st ++ [heapGet st p]) st.length sp,
                some (qsStringify sp))).2 = _
    rw [if_pos hcond, hcp]
  have hmem : ("client", objGet sp "client_id") ∈ canonicalParams sp := by
    show _ ∈ objDelete (objDelete (objSet sp "client" (objGet sp "client_id"))
      "client_id") "client_secret"
    exact objDelete_mem
      (objDelete_mem (objSet_mem _ _ _)
        (show ("client" : String) ≠ "client_id" by decide))
      (show ("client" : String) ≠ "client_secret" by decide)
  have hnonempty : canonicalParams sp ≠ [] := List.ne_nil_of_mem hmem
  have hsigchars : ∀ x ∈ SIG.data, x ≠ '&' := by
    intro x hx
    rw [hSIG] at hx
    have hsafe := toWebSafe_b64_chars _ x hx
    have hamp : ∀ y ∈ urlSafeB64Chars, y ≠ '&' := by decide
    exact hamp x hsafe.1
  have hfields := fieldsOf_premium (canonicalParams sp) hnonempty SIG hsigchars
  refine ⟨SIG, qsStringify (canonicalParams sp) ++ "&signature=" ++ SIG,
    hout, rfl, ?_, ?_, ?_⟩
  · rw [hfields]
    apply List.mem_append_left
    refine List.mem_map.2 ⟨("client", objGet sp "client_id"), ?_, ?_⟩
    · exact ((List.perm_insertionSort _ (canonicalParams sp)).mem_iff).2 hmem
    · have hpc : percentEncode "client" = "client" := by decide
      simp [hpc]
  · intro f hf
    rw [hfields] at hf
    rcases List.mem_append.1 hf with hf | hf
    · obtain ⟨q, hq, rfl⟩ := List.mem_map.1 hf
      have hq2 : q ∈ canonicalParams sp :=
        ((List.perm_insertionSort _ (canonicalParams sp)).mem_iff).1 hq
      have hq3 := objDelete_key hq2
      have hq4 := objDelete_key hq3.1
      constructor
      · intro heq
        exact hq4.2 (percentEncode_eq_plain heq (by decide))
      · intro heq
        exact hq3.2 (percentEncode_eq_plain heq (by decide))
    · rw [List.mem_singleton] at hf
      subst hf
      exact ⟨show ("signature" : String) ≠ "client_id" by decide,
             show ("signature" : String) ≠ "client_secret" by decide⟩
  · rw [hfields]
    exact List.getLast?_concat _

/-- Claim C2 witness: a concrete premium-plan mapping with an identifier,
a secret, and one ordinary field. -/
theorem serializer_premium_fields_witness :
    objHasKey (applyFormat [] (heapGet [[("client_id", JSVal.str "id"),
      ("client_secret", JSVal.str "c2VjcmV0"), ("address", JSVal.str "x")]] 0))
      "client_id" = true ∧
    objHasKey (applyFormat [] (heapGet [[("client_id", JSVal.str "id"),
      ("client_secret", JSVal.str "c2VjcmV0"), ("address", JSVal.str "x")]] 0))
      "client_secret" = true ∧
    parseURL ("https://maps.example.com/api/json" ++ "?" ++
      qsStringify (canonicalParams (applyFormat [] (heapGet [[("client_id", JSVal.str "id"),
        ("client_secret", JSVal.str "c2VjcmV0"), ("address", JSVal.str "x")]] 0)))) =
      some ⟨"https", "maps.example.com", "/api/json", "?address=x&client=id", ""⟩ ∧
    (∃ sig r,
      ((serializer [] "https://maps.example.com/api/json")
        [[("client_id", JSVal.str "id"), ("client_secret", JSVal.str "c2VjcmV0"),
          ("address", JSVal.str "x")]] 0).2 = some r ∧
      r = qsStringify (canonicalParams (applyFormat [] (heapGet [[("client_id", JSVal.str "id"),
            ("client_secret", JSVal.str "c2VjcmV0"), ("address", JSVal.str "x")]] 0))) ++
          "&signature=" ++ sig ∧
      ("client", qsValue (objGet (applyFormat [] (heapGet [[("client_id", JSVal.str "id"),
        ("client_secret", JSVal.str "c2VjcmV0"), ("address", JSVal.str "x")]] 0))
          "client_id")) ∈ fieldsOf r ∧
      (∀ f ∈ fieldsOf r, f.1 ≠ "client_id" ∧ f.1 ≠ "client_secret") ∧
      (fieldsOf r).getLast? = some ("signature", sig)) :=
  ⟨by decide, by decide, by decide,
   serializer_premium_fields [] "https://maps.example.com/api/json"
     [[("client_id", JSVal.str "id"), ("client_secret", JSVal.str "c2VjcmV0"),
       ("address", JSVal.str "x")]] 0
     ⟨"https", "maps.example.com", "/api/json", "?address=x&client=id", ""⟩
     (by decide) (by decide) (by decide)⟩
